import Mathlib

/-
  Verification of the avecado vector-tile post-processing pipeline
  (unionizer and adminizer) against its natural-language specification.

  The C++ sources are shallowly embedded: mapnik attribute values become an
  inductive `MVal`, attribute maps become association lists, doubles become
  exact rationals, `std::map` / `std::multiset` become sorted lists, and the
  stateful loops become folds over explicit state.
-/

namespace Avecado

/-! ## Attribute values (mapnik::value) -/

/-- A mapnik attribute value: one of null, boolean, integer, or string.
(The floating variant is omitted; no claim distinguishes it from integers.) -/
inductive MVal where
  | vnull : MVal
  | vbool : Bool → MVal
  | vint : Int → MVal
  | vstr : String → MVal
deriving DecidableEq, Repr

/-- An attribute map: association list from key to value, in iteration order. -/
abbrev Attrs : Type := List (String × MVal)

/-- `feature->has_key(k)`: the key exists in the attribute map. -/
def has_key (a : Attrs) (k : String) : Bool :=
  (List.find? (fun kv => kv.1 = k) a).isSome

/-- `feature->get(k)`: value at the key; a default-constructed (null) value
when the key is missing, as in mapnik. -/
def get_val (a : Attrs) (k : String) : MVal :=
  match List.find? (fun kv => kv.1 = k) a with
  | some kv => kv.2
  | none => MVal.vnull

/-- `feature->put(k, v)`: replace the value at an existing key (first
occurrence); insert at the end when the key is absent. -/
def put_val : Attrs → String → MVal → Attrs
  | [], k, v => [(k, v)]
  | kv :: rest, k, v =>
    if kv.1 = k then (k, v) :: rest else kv :: put_val rest k v

/-- `feature->put_new(k, v)`: insert a key; in this model identical to
replacement when the key is already present. -/
def put_new : Attrs → String → MVal → Attrs :=
  put_val

/-- Ordering used by mapnik value comparison, modelled as type rank first,
then the natural order within a type. Only its use as a tie-break key in the
candidate comparator matters to the claims. -/
def mval_rank : MVal → ℕ
  | .vnull => 0
  | .vbool _ => 1
  | .vint _ => 2
  | .vstr _ => 3

/-- Strict order on attribute values (mapnik `value::operator<`). -/
def mval_lt : MVal → MVal → Bool
  | .vbool x, .vbool y => !x && y
  | .vint x, .vint y => x < y
  | .vstr x, .vstr y => x < y
  | a, b => mval_rank a < mval_rank b

/-! ## Unionizer: heuristics, strategies, candidates -/

/-- `union_heuristic` enumeration. -/
inductive union_heuristic where
  | GREEDY
  | OBTUSE
  | ACUTE
deriving DecidableEq, Repr

/-- `tag_strategy` enumeration. -/
inductive tag_strategy where
  | INTERSECT
  | ACCUMULATE
deriving DecidableEq, Repr

/-- The `string_to_heuristic` lookup table. -/
def string_to_heuristic (s : String) : Option union_heuristic :=
  if s = "greedy" then some union_heuristic.GREEDY
  else if s = "obtuse" then some union_heuristic.OBTUSE
  else if s = "acute" then some union_heuristic.ACUTE
  else none

/-- The `string_to_strategy` lookup table. -/
def string_to_strategy (s : String) : Option tag_strategy :=
  if s = "intersect" then some tag_strategy.INTERSECT
  else if s = "accumulate" then some tag_strategy.ACCUMULATE
  else none

/-- Which end of a linestring a candidate refers to (`candidate::position`). -/
inductive cposition where
  | FRONT
  | BACK
deriving DecidableEq, Repr

/-- A mapnik feature as the unionizer touches it: its id and attribute map.
`mapnik::feature_ptr` identity is modelled as equality of this value;
distinct features of a layer are distinct values. -/
structure MFeature where
  fid : Int
  attrs : Attrs
deriving DecidableEq

/-- A union candidate: one endpoint of one linestring (struct `candidate`).
The direction vector (m_dx, m_dy) of an angular heuristic is carried as data;
for the greedy heuristic the source leaves it NaN and never reads it, here it
is whatever the constructor stored. -/
structure candidate where
  m_position : cposition
  m_index : ℕ
  m_parent : MFeature
  m_directional : Bool
  m_x : ℚ
  m_y : ℚ
  m_dx : ℚ
  m_dy : ℚ
deriving DecidableEq

/-- `candidate_comparator` tag tie-break loop over the configured tag set. -/
def tag_lt : List String → candidate → candidate → Bool
  | [], _, _ => false
  | t :: rest, a, b =>
    let a_val := get_val a.m_parent.attrs t
    let b_val := get_val b.m_parent.attrs t
    if mval_lt a_val b_val then true
    else if mval_lt b_val a_val then false
    else tag_lt rest a b

/-- `candidate_comparator::operator()`: lexicographic on (x, y), then on the
match-tag values in tag-set order. -/
def candidate_comparator (tags : List String) (a b : candidate) : Bool :=
  if a.m_x < b.m_x then true
  else if b.m_x < a.m_x then false
  else if a.m_y < b.m_y then true
  else if b.m_y < a.m_y then false
  else tag_lt tags a b

/-- `make_couple`: the compatibility filter. Rejects a ring (same geometry of
the same feature), mismatched directional flags, and directional pairs whose
positions coincide. -/
def make_couple (a b : candidate) : Option (candidate × candidate) :=
  if a.m_index = b.m_index ∧ a.m_parent = b.m_parent then none
  else if a.m_directional ≠ b.m_directional then none
  else if a.m_directional ∧ a.m_position = b.m_position then none
  else some (a, b)

/-- `MAX_SCORE = std::numeric_limits<unsigned char>::max()`. -/
def MAX_SCORE : ℕ := 255

/-- `greedy_score`: 0 for front-back, `MAX_SCORE / 2` (= 127 by integer
division) for back-back, `MAX_SCORE` for front-front. -/
def greedy_score (c : candidate × candidate) : ℕ :=
  if c.1.m_position ≠ c.2.m_position then 0
  else if c.1.m_position = cposition.BACK then MAX_SCORE / 2
  else MAX_SCORE

/-- Dot product of the two candidates' direction vectors. -/
def dot_product (c : candidate × candidate) : ℚ :=
  c.1.m_dx * c.2.m_dx + c.1.m_dy * c.2.m_dy

/-- The double value `MAX_SCORE * ((dot + 1) * .5)` computed by
`obtuse_score` before its conversion to `unsigned char`. -/
def obtuse_raw (c : candidate × candidate) : ℚ :=
  255 * ((dot_product c + 1) * (1 / 2))

/-- `obtuse_score`: 255 for a degenerate direction vector, otherwise the
double `255 * ((dot + 1) * .5)` converted to `unsigned char`. The conversion
truncates toward zero; it is modelled by the floor, which coincides with
truncation on the nonnegative values for which the conversion is defined. -/
def obtuse_score (c : candidate × candidate) : ℕ :=
  if (c.1.m_dx = 0 ∧ c.1.m_dy = 0) ∨ (c.2.m_dx = 0 ∧ c.2.m_dy = 0) then MAX_SCORE
  else (⌊obtuse_raw c⌋).toNat

/-- `acute_score`: 255 for a degenerate direction vector, otherwise
`MAX_SCORE - obtuse_score`. -/
def acute_score (c : candidate × candidate) : ℕ :=
  if (c.1.m_dx = 0 ∧ c.1.m_dy = 0) ∨ (c.2.m_dx = 0 ∧ c.2.m_dy = 0) then MAX_SCORE
  else MAX_SCORE - obtuse_score c

/-- The pairs examined by `score_candidates`: each candidate against every
following candidate of the multiset that the comparator does not place
strictly below it (its adjacency group), filtered through `make_couple`.
The multiset is modelled as its sorted element list. -/
def adjacent_couples (cmp : candidate → candidate → Bool) :
    List candidate → List (candidate × candidate)
  | [] => []
  | c :: rest =>
    (rest.takeWhile (fun d => !(cmp c d))).filterMap (fun d => make_couple c d)
      ++ adjacent_couples cmp rest

/-- `std::map<score_t, couple_t>::emplace`: insert in key order, but only
when the key is not already present; on a duplicate key nothing happens. -/
def map_emplace : List (ℕ × (candidate × candidate)) → ℕ → (candidate × candidate) →
    List (ℕ × (candidate × candidate))
  | [], k, v => [(k, v)]
  | e :: rest, k, v =>
    if k < e.1 then (k, v) :: e :: rest
    else if k = e.1 then e :: rest
    else e :: map_emplace rest k v

/-- Lookup in the score map. -/
def map_lookup : List (ℕ × (candidate × candidate)) → ℕ → Option (candidate × candidate)
  | [], _ => none
  | e :: rest, k => if e.1 = k then some e.2 else map_lookup rest k

/-- The score map invariant: keys strictly ascending, as in a `std::map`. -/
def map_sorted (m : List (ℕ × (candidate × candidate))) : Prop :=
  List.Pairwise (fun x y => x.1 < y.1) m

/-- First-defined choice between two optional values. -/
def opt_or {α : Type} : Option α → Option α → Option α
  | some a, _ => some a
  | none, b => b

/-- `score_candidates`: emplace every compatible adjacency pair with its
score into the score-ordered map. -/
def score_candidates (cmp : candidate → candidate → Bool) (candidates : List candidate)
    (scorer : candidate × candidate → ℕ) : List (ℕ × (candidate × candidate)) :=
  (adjacent_couples cmp candidates).foldl (fun m c => map_emplace m (scorer c) c) []

/-! ## Unionizer: the union pass -/

/-- `std::unordered_set::emplace` on the touched-id set. -/
def set_insert (s : List Int) (x : Int) : List Int :=
  if x ∈ s then s else x :: s

/-- One step of the `union_candidates` loop over the score map: skip the
couple when either parent id was already touched this iteration, otherwise
perform the union (recorded in the first state component) and mark both
parent ids touched. -/
def union_step (st : List (candidate × candidate) × List Int)
    (entry : ℕ × (candidate × candidate)) : List (candidate × candidate) × List Int :=
  let couple := entry.2
  if couple.1.m_parent.fid ∈ st.2 ∨ couple.2.m_parent.fid ∈ st.2 then st
  else (st.1 ++ [couple],
        set_insert (set_insert st.2 couple.1.m_parent.fid) couple.2.m_parent.fid)

/-- The control flow of `union_candidates`: walk the score map in key order
from an empty performed list and an empty touched set. -/
def union_candidates (scored : List (ℕ × (candidate × candidate))) :
    List (candidate × candidate) × List Int :=
  scored.foldl union_step ([], [])

/-- The merged linestring built by the front-front branch of `do_union`:
the first geometry's vertices in reverse order, then the second geometry's
vertices from index 1 on. -/
def front_front_merged (g1 g2 : List (ℚ × ℚ)) : List (ℚ × ℚ) :=
  g1.reverse ++ g2.drop 1

/-- The front-front branch of `do_union` when both candidates refer to the
same parent feature, so both erases act on one geometry container: build the
merged geometry, erase at the first index, erase at the second (stored) index
of the now-shifted container, push the merged geometry at the back.
`List.eraseIdx` out of range removes nothing; the C++ `erase(begin() + i)`
past the end is undefined, and the theorems expose when that happens. -/
def do_union_front_front (paths : List (List (ℚ × ℚ))) (i1 i2 : ℕ) :
    List (List (ℚ × ℚ)) :=
  let dst := front_front_merged (paths.getD i1 []) (paths.getD i2 [])
  ((paths.eraseIdx i1).eraseIdx i2) ++ [dst]

/-! ## Unionizer: tag reconciliation -/

/-- First loop of `sanitize_tags` over the destination's attributes: a key the
other feature lacks is nulled only under INTERSECT; a key the other feature
holds with a different value is nulled under either strategy. -/
def sanitize_first_loop (strategy : tag_strategy) (a b : Attrs) : Attrs :=
  List.map
    (fun kv =>
      if has_key b kv.1 = false then
        (if strategy = tag_strategy.INTERSECT then (kv.1, MVal.vnull) else kv)
      else if kv.2 ≠ get_val b kv.1 then (kv.1, MVal.vnull)
      else kv)
    a

/-- `sanitize_tags`: the first loop, then (only under ACCUMULATE) the second
loop copying onto the destination every key of the other feature that the
destination still does not have. -/
def sanitize_tags (strategy : tag_strategy) (a b : Attrs) : Attrs :=
  let a1 := sanitize_first_loop strategy a b
  List.foldl
    (fun acc kv =>
      if strategy = tag_strategy.ACCUMULATE ∧ has_key acc kv.1 = false then
        put_new acc kv.1 kv.2
      else acc)
    a1 b

/-- The accumulate semantics as the claim words them: the full intersect pass
(null every destination key the other feature lacks or disagrees on), then
copy every missing key of the other feature. -/
def accumulate_claimed (a b : Attrs) : Attrs :=
  let a1 := List.map
    (fun kv =>
      if has_key b kv.1 = false ∨ kv.2 ≠ get_val b kv.1 then (kv.1, MVal.vnull) else kv)
    a
  List.foldl
    (fun acc kv => if has_key acc kv.1 = false then put_new acc kv.1 kv.2 else acc)
    a1 b

/-- The accumulate semantics as amended: null only the destination keys the
other feature also holds with a different value (keys the other feature lacks
are kept unchanged), then copy every missing key of the other feature. -/
def accumulate_amended (a b : Attrs) : Attrs :=
  let a1 := List.map
    (fun kv =>
      if has_key b kv.1 = true ∧ kv.2 ≠ get_val b kv.1 then (kv.1, MVal.vnull) else kv)
    a
  List.foldl
    (fun acc kv => if has_key acc kv.1 = false then put_new acc kv.1 kv.2 else acc)
    a1 b

/-! ## Unionizer and adminizer construction (configuration) -/

/-- `std::numeric_limits<size_t>::max()`. -/
def SIZE_T_MAX : ℕ := 2 ^ 64 - 1

/-- The property-tree keys `create_unionizer` reads, already typed; a `none`
field is an absent key, for which the source substitutes its default. -/
structure unionizer_config where
  union_heuristic : Option String
  tag_strategy : Option String
  keep_ids_tag : Option String
  max_iterations : Option ℕ
  match_tags : Option (List String)
  preserve_direction_tags : Option (List String)
  angle_union_sample_ratio : Option ℚ
deriving DecidableEq, Repr

/-- The constructed unionizer processor (its stored configuration). -/
structure unionizer_t where
  m_heuristic : union_heuristic
  m_strategy : tag_strategy
  m_keep_ids_tag : Option String
  m_max_iterations : ℕ
  m_match_tags : List String
  m_preserve_direction_tags : List String
  m_angle_union_sample_ratio : ℚ
deriving DecidableEq, Repr

/-- `create_unionizer`: resolve the heuristic string (default greedy), the
strategy string (default intersect), then the remaining options, and reject a
sample ratio outside (0, 1/2]. A thrown `runtime_error` is the error case. -/
def create_unionizer (config : unionizer_config) : Except String unionizer_t :=
  let requested_heuristic := config.union_heuristic.getD "greedy"
  match string_to_heuristic requested_heuristic with
  | none => Except.error (requested_heuristic ++ " is not supported, try greedy, obtuse or acute")
  | some heuristic =>
    let requested_strategy := config.tag_strategy.getD "intersect"
    match string_to_strategy requested_strategy with
    | none => Except.error (requested_strategy ++ " is not supported, try intersect")
    | some strategy =>
      let keep_ids_tag := config.keep_ids_tag
      let max_iterations := config.max_iterations.getD SIZE_T_MAX
      let match_set := config.match_tags.getD []
      let direction := config.preserve_direction_tags.getD []
      let ratio := config.angle_union_sample_ratio.getD (1 / 10)
      if ratio ≤ 0 ∨ 1 / 2 < ratio then
        Except.error "Please make sure 0 < angle_union_sample_ratio <= .5"
      else
        Except.ok ⟨heuristic, strategy, keep_ids_tag, max_iterations, match_set, direction, ratio⟩

/-- The configuration subtree handed to the adminizer constructor. -/
structure adminizer_config where
  param_name : Option String
  datasource : List (String × String)
deriving DecidableEq, Repr

/-- The constructed adminizer processor (its stored configuration; the
datasource object itself is an external collaborator). -/
structure adminizer_t where
  m_param_name : String
  m_datasource_params : List (String × String)
deriving DecidableEq, Repr

/-- The adminizer constructor: `config.get<std::string>("param_name")` with no
default throws when the key is missing; the thrown `ptree_bad_path` is the
error case. -/
def create_adminizer (config : adminizer_config) : Except String adminizer_t :=
  match config.param_name with
  | none => Except.error "No such node (param_name)"
  | some p => Except.ok ⟨p, config.datasource⟩

/-- Whether an `Except` result carries a constructed processor. -/
def is_ok {α : Type} (r : Except String α) : Bool :=
  match r with
  | Except.ok _ => true
  | Except.error _ => false

/-! ## Adminizer: entries from the auxiliary datasource -/

/-- A mapnik geometry type tag. -/
inductive geom_type where
  | Point
  | LineString
  | Polygon
deriving DecidableEq, Repr

/-- A geometry of an auxiliary feature: its type tag and an opaque payload
standing for its vertex data (what `make_boost_polygon` converts). -/
structure src_geometry where
  gtype : geom_type
  shape : ℕ
deriving DecidableEq, Repr

/-- An auxiliary feature as `make_entries` reads it: the value of its
`param_name` attribute and its geometry list, in iteration order. -/
structure src_feature where
  param : MVal
  geoms : List src_geometry
deriving DecidableEq, Repr

/-- An adminizer entry: converted polygon, attribute value, index. -/
structure full_entry where
  polygon : ℕ
  value : MVal
  index : ℕ
deriving DecidableEq, Repr

/-- Inner loop of `make_entries` over one feature's geometries: each polygon
geometry appends an entry carrying the feature's param value and the running
index, which then increments; other geometry types are skipped. `entry`'s
constructor copies the value (its rvalue-reference parameter is used as an
lvalue), so every entry of the feature carries the same param value. -/
def make_entries_feature (f : src_feature) (acc : List full_entry × ℕ) :
    List full_entry × ℕ :=
  f.geoms.foldl
    (fun (acc2 : List full_entry × ℕ) g =>
      if g.gtype = geom_type.Polygon then
        (acc2.1 ++ [⟨g.shape, f.param, acc2.2⟩], acc2.2 + 1)
      else acc2)
    acc

/-- `make_entries`: walk the returned features in iteration order with the
index starting at 0. -/
def make_entries (fs : List src_feature) : List full_entry :=
  (fs.foldl (fun acc f => make_entries_feature f acc) ([], 0)).1

/-- The (polygon, param value) pairs of all polygon geometries of all
features, in iteration order. -/
def polygon_params (fs : List src_feature) : List (ℕ × MVal) :=
  fs.flatMap
    (fun f => (f.geoms.filter (fun g => g.gtype == geom_type.Polygon)).map
      (fun g => (g.shape, f.param)))

/-- Pairs turned into entries with consecutive indices from `n`. -/
def with_indices : List (ℕ × MVal) → ℕ → List full_entry
  | [], _ => []
  | p :: rest, n => ⟨p.1, p.2, n⟩ :: with_indices rest (n + 1)

/-! ## Adminizer: per-feature updater -/

/-- `std::numeric_limits<unsigned int>::max()`. -/
def UINT_MAX : ℕ := 2 ^ 32 - 1

/-- An entry as the updater consumes it (the polygon no longer matters). -/
structure adm_entry where
  value : MVal
  index : ℕ
deriving DecidableEq, Repr

/-- `param_updater` state: the feature's attribute map it mutates, the best
index seen (`m_index`), and the finished flag. -/
structure updater_state where
  m_attrs : Attrs
  m_index : ℕ
  m_finished : Bool
deriving DecidableEq

/-- `param_updater` construction: best index starts at the maximum
representable unsigned int, finished starts false. -/
def param_updater_init (attrs : Attrs) : updater_state :=
  ⟨attrs, UINT_MAX, false⟩

/-- `param_updater::operator()`: act only when the entry's index is strictly
below the best index seen; then write the attribute, set finished exactly
when the index is 0, and lower the best index. -/
def param_updater_call (param_name : String) (s : updater_state) (e : adm_entry) :
    updater_state :=
  if e.index < s.m_index then
    ⟨put_new s.m_attrs param_name e.value, e.index, e.index == 0⟩
  else s

/-- `try_update` for one geometry: the R-tree query invokes the updater on
each entry whose envelope intersects and whose polygon passes the precise
test; those entries, in query order, are the geometry's hit list (the spatial
backend is an external collaborator, so the hit list is taken as given). -/
def try_update (param_name : String) (s : updater_state) (hits : List adm_entry) :
    updater_state :=
  hits.foldl (param_updater_call param_name) s

/-- `adminize_feature`: walk the feature's geometries, each contributing its
hit list, and quick-exit the loop as soon as the updater is finished. -/
def adminize_feature (param_name : String) :
    List (List adm_entry) → updater_state → updater_state
  | [], s => s
  | g :: rest, s =>
    let s1 := try_update param_name s g
    if s1.m_finished then s1 else adminize_feature param_name rest s1

/-! ## Adminizer: layer envelope -/

/-- mapnik::box2d with rational coordinates. -/
structure box2d where
  minx : ℚ
  miny : ℚ
  maxx : ℚ
  maxy : ℚ
deriving DecidableEq, Repr

/-- `box2d::expand_to_include`: smallest box containing both. -/
def expand_to_include (a b : box2d) : box2d :=
  ⟨min a.minx b.minx, min a.miny b.miny, max a.maxx b.maxx, max a.maxy b.maxy⟩

/-- The mapnik default-constructed (invalid) box. -/
def default_box : box2d := ⟨0, 0, -1, -1⟩

/-- `adminizer::envelope` embedded as written: the flag `first` starts `true`
and the loop body never assigns it, so the `first` branch is taken on every
feature and the accumulator is overwritten with each feature's envelope. -/
def adminizer_envelope (envs : List box2d) : box2d :=
  (envs.foldl
    (fun (st : box2d × Bool) fe =>
      if st.2 then (fe, st.2) else (expand_to_include st.1 fe, st.2))
    (default_box, true)).1

/-- The layer envelope as the spec words it: the first feature's envelope
expanded to include every subsequent feature's envelope. -/
def envelope_union (first_env : box2d) (rest : List box2d) : box2d :=
  rest.foldl expand_to_include first_env

/-! ## Concrete candidates used in counterexamples and witnesses -/

/-- A non-directional front candidate with direction vector (1, 0). -/
def cand_dx10 : candidate := ⟨cposition.FRONT, 0, ⟨1, []⟩, false, 0, 0, 1, 0⟩

/-- A non-directional front candidate with direction vector (0, 1). -/
def cand_dy01 : candidate := ⟨cposition.FRONT, 0, ⟨2, []⟩, false, 0, 0, 0, 1⟩

/-- A non-directional front candidate with direction vector (2, 0). -/
def cand_d20a : candidate := ⟨cposition.FRONT, 0, ⟨3, []⟩, false, 0, 0, 2, 0⟩

/-- Another non-directional front candidate with direction vector (2, 0). -/
def cand_d20b : candidate := ⟨cposition.FRONT, 0, ⟨4, []⟩, false, 0, 0, 2, 0⟩

/-- A candidate whose direction vector is degenerate, (0, 0). -/
def cand_deg : candidate := ⟨cposition.FRONT, 0, ⟨5, []⟩, false, 0, 0, 0, 0⟩

/-- A non-directional back candidate with direction vector (1, 0). -/
def cand_back10 : candidate := ⟨cposition.BACK, 0, ⟨6, []⟩, false, 0, 0, 1, 0⟩

/-- A non-directional back candidate with direction vector (-1, 0). -/
def cand_backneg : candidate := ⟨cposition.BACK, 0, ⟨2, []⟩, false, 0, 0, -1, 0⟩

/-- A directional front candidate of feature 7, geometry index 0. -/
def cdir_f0 : candidate := ⟨cposition.FRONT, 0, ⟨7, []⟩, true, 0, 0, 0, 0⟩

/-- A directional front candidate of feature 7, geometry index 1. -/
def cdir_f1 : candidate := ⟨cposition.FRONT, 1, ⟨7, []⟩, true, 0, 0, 0, 0⟩

/-- A non-directional front candidate of feature 9, geometry index 0. -/
def cnod_f0 : candidate := ⟨cposition.FRONT, 0, ⟨9, []⟩, false, 0, 0, 0, 0⟩

/-- A non-directional front candidate of feature 9, geometry index 1. -/
def cnod_f1 : candidate := ⟨cposition.FRONT, 1, ⟨9, []⟩, false, 0, 0, 0, 0⟩

/-- Two performed unions touch four pairwise different feature ids. -/
def couple_disjoint (c1 c2 : candidate × candidate) : Prop :=
  c1.1.m_parent.fid ≠ c2.1.m_parent.fid ∧ c1.1.m_parent.fid ≠ c2.2.m_parent.fid ∧
  c1.2.m_parent.fid ≠ c2.1.m_parent.fid ∧ c1.2.m_parent.fid ≠ c2.2.m_parent.fid

/-! ## Theorems -/

/-- On a non-degenerate pair the obtuse score is the truncated raw value. -/
theorem obtuse_score_nondegenerate (c : candidate × candidate)
    (h : ¬((c.1.m_dx = 0 ∧ c.1.m_dy = 0) ∨ (c.2.m_dx = 0 ∧ c.2.m_dy = 0))) :
    obtuse_score c = (⌊obtuse_raw c⌋).toNat := by
  simp [obtuse_score, h]

/-- On a degenerate pair the obtuse score is 255. -/
theorem obtuse_score_degenerate (c : candidate × candidate)
    (h : (c.1.m_dx = 0 ∧ c.1.m_dy = 0) ∨ (c.2.m_dx = 0 ∧ c.2.m_dy = 0)) :
    obtuse_score c = 255 := by
  simp [obtuse_score, h, MAX_SCORE]

/-- On a non-degenerate pair the acute score is 255 minus the obtuse score. -/
theorem acute_score_nondegenerate (c : candidate × candidate)
    (h : ¬((c.1.m_dx = 0 ∧ c.1.m_dy = 0) ∨ (c.2.m_dx = 0 ∧ c.2.m_dy = 0))) :
    acute_score c = 255 - obtuse_score c := by
  simp [acute_score, h, MAX_SCORE]

/-- On a degenerate pair the acute score is 255. -/
theorem acute_score_degenerate (c : candidate × candidate)
    (h : (c.1.m_dx = 0 ∧ c.1.m_dy = 0) ∨ (c.2.m_dx = 0 ∧ c.2.m_dy = 0)) :
    acute_score c = 255 := by
  simp [acute_score, h, MAX_SCORE]

/-- `adminizer_envelope` returns the envelope of the *last* feature. -/
theorem adminizer_envelope_eq_last (envs : List box2d) (e : box2d) :
    adminizer_envelope (envs ++ [e]) = e := by
  unfold adminizer_envelope
  have h : ∀ (st : box2d × Bool), st.2 = true →
      ((envs ++ [e]).foldl
        (fun (st : box2d × Bool) fe =>
          if st.2 then (fe, st.2) else (expand_to_include st.1 fe, st.2)) st).1 = e := by
    induction envs with
    | nil =>
      intro st hst
      simp [hst]
    | cons x xs ih =>
      intro st hst
      simp only [List.cons_append, List.foldl_cons, hst, if_pos]
      exact ih (x, true) rfl
  exact h (default_box, true) rfl

/-- C1: the spec says the query envelope is the union of all feature
envelopes, but `adminizer::envelope` never clears its `first` flag, so on the
two-feature layer with envelopes (0,0,1,1) and (2,2,3,3) the code produces the
last envelope (2,2,3,3) instead of the union (0,0,3,3). -/
theorem C1_envelope_is_last_not_union :
    adminizer_envelope [⟨0, 0, 1, 1⟩, ⟨2, 2, 3, 3⟩] = ⟨2, 2, 3, 3⟩ ∧
    envelope_union ⟨0, 0, 1, 1⟩ [⟨2, 2, 3, 3⟩] = ⟨0, 0, 3, 3⟩ ∧
    adminizer_envelope [⟨0, 0, 1, 1⟩, ⟨2, 2, 3, 3⟩] ≠
      envelope_union ⟨0, 0, 1, 1⟩ [⟨2, 2, 3, 3⟩] := by
  refine ⟨rfl, by decide, by decide⟩

/-- C2 counterexample: the destination holds `ref = "A1"` and the other
feature has no attributes. Under accumulate the code keeps `ref = "A1"`,
while the claim's intersect-then-copy semantics nulls it. -/
theorem C2_accumulate_is_not_intersect_then_copy :
    sanitize_tags tag_strategy.ACCUMULATE [("ref", MVal.vstr "A1")] [] =
      [("ref", MVal.vstr "A1")] ∧
    accumulate_claimed [("ref", MVal.vstr "A1")] [] = [("ref", MVal.vnull)] ∧
    sanitize_tags tag_strategy.ACCUMULATE [("ref", MVal.vstr "A1")] [] ≠
      accumulate_claimed [("ref", MVal.vstr "A1")] [] := by
  refine ⟨by decide, by decide, by decide⟩

/-- C2 (amended): under the accumulate strategy, destination keys the other
feature lacks are kept unchanged; destination keys the other feature holds
with a different value are set to null; then every key of the other feature
not present on the destination is copied onto it. -/
theorem C2_accumulate_amended (a b : Attrs) :
    sanitize_tags tag_strategy.ACCUMULATE a b = accumulate_amended a b := by
  unfold sanitize_tags accumulate_amended sanitize_first_loop
  have hg : (fun kv : String × MVal =>
      if has_key b kv.1 = false then
        (if tag_strategy.ACCUMULATE = tag_strategy.INTERSECT then (kv.1, MVal.vnull) else kv)
      else if kv.2 ≠ get_val b kv.1 then (kv.1, MVal.vnull)
      else kv) =
      (fun kv : String × MVal =>
        if has_key b kv.1 = true ∧ kv.2 ≠ get_val b kv.1 then (kv.1, MVal.vnull) else kv) := by
    funext kv
    by_cases h1 : has_key b kv.1 = true
    · by_cases h2 : kv.2 = get_val b kv.1 <;> simp [h1, h2]
    · have h1f : has_key b kv.1 = false := by simpa using h1
      simp [h1f]
  have hf : (fun (acc : Attrs) (kv : String × MVal) =>
      if tag_strategy.ACCUMULATE = tag_strategy.ACCUMULATE ∧ has_key acc kv.1 = false then
        put_new acc kv.1 kv.2
      else acc) =
      (fun (acc : Attrs) (kv : String × MVal) =>
        if has_key acc kv.1 = false then put_new acc kv.1 kv.2 else acc) := by
    funext acc kv
    simp
  rw [hg, hf]

/-- A key below every key of the map is not bound. -/
theorem map_lookup_none_of_lt (l : List (ℕ × (candidate × candidate))) (k : ℕ)
    (h : ∀ x ∈ l, k < x.1) : map_lookup l k = none := by
  induction l with
  | nil => rfl
  | cons x xs ihx =>
    have hx := h x (List.mem_cons_self x xs)
    have hne : x.1 ≠ k := by omega
    simp [map_lookup, hne, ihx (fun y hy => h y (List.mem_cons_of_mem x hy))]

/-- Every element of the emplaced map either carries the emplaced key or was
already in the map. -/
theorem mem_map_emplace (m : List (ℕ × (candidate × candidate))) (k : ℕ)
    (v : candidate × candidate) :
    ∀ y ∈ map_emplace m k v, y.1 = k ∨ y ∈ m := by
  induction m with
  | nil =>
    intro y hy
    simp [map_emplace] at hy
    left
    rw [hy]
  | cons r rs ihr =>
    intro y hy
    unfold map_emplace at hy
    by_cases hk1 : k < r.1
    · simp only [if_pos hk1, List.mem_cons] at hy
      rcases hy with hy | hy | hy
      · left; rw [hy]
      · right; exact List.mem_cons.mpr (Or.inl hy)
      · right; exact List.mem_cons.mpr (Or.inr hy)
    · by_cases hk2 : k = r.1
      · simp only [if_neg hk1, if_pos hk2, List.mem_cons] at hy
        rcases hy with hy | hy
        · right; exact List.mem_cons.mpr (Or.inl hy)
        · right; exact List.mem_cons.mpr (Or.inr hy)
      · simp only [if_neg hk1, if_neg hk2, List.mem_cons] at hy
        rcases hy with hy | hy
        · right; exact List.mem_cons.mpr (Or.inl hy)
        · rcases ihr y hy with h | h
          · left; exact h
          · right; exact List.mem_cons.mpr (Or.inr h)

/-- Emplace does not disturb the binding of any other key. -/
theorem map_lookup_emplace_other (m : List (ℕ × (candidate × candidate))) (k : ℕ)
    (v : candidate × candidate) (k' : ℕ) (hne : k' ≠ k) :
    map_lookup (map_emplace m k v) k' = map_lookup m k' := by
  induction m with
  | nil =>
    have : k ≠ k' := fun h => hne h.symm
    simp [map_emplace, map_lookup, this]
  | cons e rest ih =>
    unfold map_emplace
    by_cases h1 : k < e.1
    · have : k ≠ k' := fun h => hne h.symm
      simp [if_pos h1, map_lookup, this]
    · by_cases h2 : k = e.1
      · simp [if_neg h1, h2]
      · simp only [if_neg h1, if_neg h2]
        by_cases h3 : e.1 = k'
        · simp [map_lookup, h3]
        · simp [map_lookup, h3, ih]

/-- On a sorted map, emplace binds the key to its prior binding when present
and to the new value when absent. -/
theorem map_lookup_emplace_self (m : List (ℕ × (candidate × candidate)))
    (hs : map_sorted m) (k : ℕ) (v : candidate × candidate) :
    map_lookup (map_emplace m k v) k = some ((map_lookup m k).getD v) := by
  induction m with
  | nil => simp [map_emplace, map_lookup]
  | cons e rest ih =>
    have hparts := List.pairwise_cons.mp hs
    unfold map_emplace
    by_cases h1 : k < e.1
    · have hnone : map_lookup (e :: rest) k = none := by
        refine map_lookup_none_of_lt (e :: rest) k ?_
        intro x hx
        rcases List.mem_cons.mp hx with h | h
        · rw [h]; exact h1
        · exact lt_trans h1 (hparts.1 x h)
      rw [if_pos h1, hnone]
      simp [map_lookup]
    · by_cases h2 : k = e.1
      · have h2' : e.1 = k := h2.symm
        simp [if_neg h1, if_pos h2, map_lookup, h2']
      · have h3 : e.1 ≠ k := fun h => h2 h.symm
        simp only [if_neg h1, if_neg h2]
        simp [map_lookup, h3, ih hparts.2]

/-- `std::map` emplace preserves the sortedness invariant. -/
theorem map_emplace_sorted (m : List (ℕ × (candidate × candidate))) (hs : map_sorted m)
    (k : ℕ) (v : candidate × candidate) : map_sorted (map_emplace m k v) := by
  induction m with
  | nil => simp [map_emplace, map_sorted]
  | cons e rest ih =>
    have hparts := List.pairwise_cons.mp hs
    unfold map_emplace
    by_cases h1 : k < e.1
    · simp only [if_pos h1]
      refine List.pairwise_cons.mpr ⟨?_, hs⟩
      intro x hx
      rcases List.mem_cons.mp hx with h | h
      · rw [h]; exact h1
      · exact lt_trans h1 (hparts.1 x h)
    · by_cases h2 : k = e.1
      · simp [if_neg h1, h2, hs]
      · have h3 : e.1 < k := by omega
        simp only [if_neg h1, if_neg h2]
        refine List.pairwise_cons.mpr ⟨?_, ih hparts.2⟩
        intro x hx
        rcases mem_map_emplace rest k v x hx with h | h
        · omega
        · exact hparts.1 x h

/-- Folding emplace over a pair list: a key is bound to its prior binding if
any, otherwise to the first pair of the list carrying that score. -/
theorem lookup_foldl_emplace (scorer : candidate × candidate → ℕ)
    (ps : List (candidate × candidate)) :
    ∀ (m : List (ℕ × (candidate × candidate))), map_sorted m → ∀ (k : ℕ),
    map_lookup (ps.foldl (fun m c => map_emplace m (scorer c) c) m) k =
      opt_or (map_lookup m k) ((ps.filter (fun c => scorer c == k)).head?) := by
  induction ps with
  | nil =>
    intro m _ k
    cases hm : map_lookup m k <;> simp [opt_or, hm]
  | cons c ps ih =>
    intro m hs k
    have hs' := map_emplace_sorted m hs (scorer c) c
    simp only [List.foldl_cons]
    rw [ih (map_emplace m (scorer c) c) hs' k]
    by_cases h : scorer c = k
    · rw [← h]
      rw [map_lookup_emplace_self m hs (scorer c) c]
      cases hm : map_lookup m (scorer c) <;> simp [opt_or, hm, List.filter_cons]
    · have hbeq : (scorer c == k) = false := by simp [h]
      have hne : k ≠ scorer c := fun hk => h hk.symm
      rw [map_lookup_emplace_other m (scorer c) c k hne]
      simp [List.filter_cons, hbeq]

/-- C3 counterexample: three front candidates at one point from three
features form three compatible pairs, all with greedy score 255, yet the
score map retains a single entry — equal-score pairs are not all retained. -/
theorem C3_equal_scores_collapse :
    (adjacent_couples (candidate_comparator [])
      [⟨cposition.FRONT, 0, ⟨1, []⟩, false, 0, 0, 0, 0⟩,
       ⟨cposition.FRONT, 0, ⟨2, []⟩, false, 0, 0, 0, 0⟩,
       ⟨cposition.FRONT, 0, ⟨3, []⟩, false, 0, 0, 0, 0⟩]).length = 3 ∧
    (score_candidates (candidate_comparator [])
      [⟨cposition.FRONT, 0, ⟨1, []⟩, false, 0, 0, 0, 0⟩,
       ⟨cposition.FRONT, 0, ⟨2, []⟩, false, 0, 0, 0, 0⟩,
       ⟨cposition.FRONT, 0, ⟨3, []⟩, false, 0, 0, 0, 0⟩] greedy_score).length = 1 := by
  refine ⟨by decide, by decide⟩

/-- C3 (amended): every compatible pair drawn from every adjacency group is
scored, and its score is a key of the map; but per score value only the
first-scanned pair is retained (`std::map::emplace` does not insert on a
duplicate key): the binding of score `k` is exactly the first compatible pair
of the adjacency scan whose score is `k`. -/
theorem C3_score_map_keeps_first_per_score (cmp : candidate → candidate → Bool)
    (cs : List candidate) (scorer : candidate × candidate → ℕ) (k : ℕ) :
    map_lookup (score_candidates cmp cs scorer) k =
      ((adjacent_couples cmp cs).filter (fun c => scorer c == k)).head? := by
  have h := lookup_foldl_emplace scorer (adjacent_couples cmp cs) []
    (by simp [map_sorted]) k
  simpa [score_candidates, map_lookup, opt_or] using h

/-- When the dot product lies in [-1, 1] the obtuse score is at most 255. -/
theorem obtuse_score_le_255 (c : candidate × candidate)
    (h1 : -1 ≤ dot_product c) (h2 : dot_product c ≤ 1) : obtuse_score c ≤ 255 := by
  unfold obtuse_score MAX_SCORE
  split
  · exact le_refl 255
  · have hraw : obtuse_raw c ≤ 255 := by
      unfold obtuse_raw
      nlinarith [h2]
    have hfloor : ⌊obtuse_raw c⌋ ≤ 255 := by
      calc ⌊obtuse_raw c⌋ ≤ ⌊(255 : ℚ)⌋ := Int.floor_le_floor hraw
      _ = 255 := by norm_num
    exact Int.toNat_le.mpr hfloor

/-- C4 counterexample: for the compatible pair with direction vectors (1,0)
and (0,1) the dot is 0 and the code truncates 127.5 to 127, so the score is
not the claimed exact value 255*(dot+1)/2; and for the compatible pair with
direction vectors (2,0) and (2,0) the dot is 4 and the computed value 637
leaves the unsigned-byte range. -/
theorem C4_obtuse_truncates_and_overflows :
    make_couple cand_dx10 cand_dy01 = some (cand_dx10, cand_dy01) ∧
    obtuse_score (cand_dx10, cand_dy01) = 127 ∧
    obtuse_raw (cand_dx10, cand_dy01) = 255 / 2 ∧
    ((obtuse_score (cand_dx10, cand_dy01) : ℚ) ≠ obtuse_raw (cand_dx10, cand_dy01)) ∧
    make_couple cand_d20a cand_d20b = some (cand_d20a, cand_d20b) ∧
    255 < obtuse_score (cand_d20a, cand_d20b) := by
  have hne : ¬(((cand_dx10, cand_dy01).1.m_dx = 0 ∧ (cand_dx10, cand_dy01).1.m_dy = 0) ∨
      ((cand_dx10, cand_dy01).2.m_dx = 0 ∧ (cand_dx10, cand_dy01).2.m_dy = 0)) := by
    norm_num [cand_dx10, cand_dy01]
  have hraw : obtuse_raw (cand_dx10, cand_dy01) = 255 / 2 := by
    norm_num [obtuse_raw, dot_product, cand_dx10, cand_dy01]
  have hfloor : ⌊(255 / 2 : ℚ)⌋ = 127 := by
    rw [Int.floor_eq_iff]
    constructor <;> norm_num
  have hscore : obtuse_score (cand_dx10, cand_dy01) = 127 := by
    rw [obtuse_score_nondegenerate _ hne, hraw, hfloor]
    rfl
  have hne2 : ¬(((cand_d20a, cand_d20b).1.m_dx = 0 ∧ (cand_d20a, cand_d20b).1.m_dy = 0) ∨
      ((cand_d20a, cand_d20b).2.m_dx = 0 ∧ (cand_d20a, cand_d20b).2.m_dy = 0)) := by
    norm_num [cand_d20a, cand_d20b]
  have hraw2 : obtuse_raw (cand_d20a, cand_d20b) = 1275 / 2 := by
    norm_num [obtuse_raw, dot_product, cand_d20a, cand_d20b]
  have hfloor2 : ⌊(1275 / 2 : ℚ)⌋ = 637 := by
    rw [Int.floor_eq_iff]
    constructor <;> norm_num
  have hscore2 : obtuse_score (cand_d20a, cand_d20b) = 637 := by
    rw [obtuse_score_nondegenerate _ hne2, hraw2, hfloor2]
    rfl
  refine ⟨by decide, hscore, hraw, ?_, by decide, ?_⟩
  · rw [hscore, hraw]
    norm_num
  · rw [hscore2]
    norm_num

/-- C4 (amended): for every compatible pair the obtuse score is 255 when
either direction vector is (0,0), and otherwise the value 255*(dot+1)/2
truncated to an integer (not the exact value, and not rounded); the score
lies within the unsigned-byte range 0 to 255 whenever the dot product lies
within [-1, 1] (the direction vectors are not normalised, so the dot may
leave that interval, where the byte conversion is not defined). -/
theorem C4_obtuse_score_amended (a b : candidate) (c : candidate × candidate)
    (hmc : make_couple a b = some c) :
    (((c.1.m_dx = 0 ∧ c.1.m_dy = 0) ∨ (c.2.m_dx = 0 ∧ c.2.m_dy = 0)) →
      obtuse_score c = 255) ∧
    (¬((c.1.m_dx = 0 ∧ c.1.m_dy = 0) ∨ (c.2.m_dx = 0 ∧ c.2.m_dy = 0)) →
      obtuse_score c = (⌊obtuse_raw c⌋).toNat) ∧
    (-1 ≤ dot_product c → dot_product c ≤ 1 →
      obtuse_score c ≤ 255 ∧ 0 ≤ ⌊obtuse_raw c⌋) := by
  refine ⟨?_, ?_, ?_⟩
  · intro h
    simp [obtuse_score, h, MAX_SCORE]
  · intro h
    simp [obtuse_score, h]
  · intro h1 h2
    refine ⟨obtuse_score_le_255 c h1 h2, ?_⟩
    apply Int.floor_nonneg.mpr
    unfold obtuse_raw
    nlinarith [h1]

/-- C4 witness: the amended theorem applied to the concrete compatible pair
with direction vectors (1,0) and (0,1). -/
theorem C4_obtuse_score_amended_witness :
    obtuse_score (cand_dx10, cand_dy01) = (⌊obtuse_raw (cand_dx10, cand_dy01)⌋).toNat ∧
    obtuse_score (cand_dx10, cand_dy01) ≤ 255 := by
  have h := C4_obtuse_score_amended cand_dx10 cand_dy01 (cand_dx10, cand_dy01) (by decide)
  exact ⟨h.2.1 (by norm_num [cand_dx10, cand_dy01]),
         (h.2.2 (by norm_num [dot_product, cand_dx10, cand_dy01])
                (by norm_num [dot_product, cand_dx10, cand_dy01])).1⟩

/-- C5 counterexample: for the compatible pair whose first direction vector
is (0,0), the acute score is 255, while 255 minus the obtuse score of the
same pair is 0 — the claimed complement relation fails on degenerate pairs. -/
theorem C5_acute_degenerate_not_complement :
    make_couple cand_deg cand_back10 = some (cand_deg, cand_back10) ∧
    acute_score (cand_deg, cand_back10) = 255 ∧
    MAX_SCORE - obtuse_score (cand_deg, cand_back10) = 0 ∧
    acute_score (cand_deg, cand_back10) ≠
      MAX_SCORE - obtuse_score (cand_deg, cand_back10) := by
  have hdeg : (((cand_deg, cand_back10).1.m_dx = 0 ∧ (cand_deg, cand_back10).1.m_dy = 0) ∨
      ((cand_deg, cand_back10).2.m_dx = 0 ∧ (cand_deg, cand_back10).2.m_dy = 0)) := by
    left
    constructor <;> norm_num [cand_deg]
  have hob : obtuse_score (cand_deg, cand_back10) = 255 := obtuse_score_degenerate _ hdeg
  have hac : acute_score (cand_deg, cand_back10) = 255 := acute_score_degenerate _ hdeg
  refine ⟨by decide, hac, ?_, ?_⟩
  · rw [hob]
    norm_num [MAX_SCORE]
  · rw [hob, hac]
    norm_num [MAX_SCORE]

/-- C5 (amended): for every compatible pair whose direction vectors are both
nonzero, the acute score equals 255 minus the obtuse score, and the two
scores sum to 255 when the dot product lies within [-1, 1]; when either
direction vector is (0,0), both scores are 255 (the acute score is then 255,
not 255 - 255 = 0). -/
theorem C5_acute_score_amended (a b : candidate) (c : candidate × candidate)
    (hmc : make_couple a b = some c) :
    (¬((c.1.m_dx = 0 ∧ c.1.m_dy = 0) ∨ (c.2.m_dx = 0 ∧ c.2.m_dy = 0)) →
      acute_score c = 255 - obtuse_score c ∧
      (-1 ≤ dot_product c → dot_product c ≤ 1 →
        acute_score c + obtuse_score c = 255)) ∧
    (((c.1.m_dx = 0 ∧ c.1.m_dy = 0) ∨ (c.2.m_dx = 0 ∧ c.2.m_dy = 0)) →
      acute_score c = 255 ∧ obtuse_score c = 255) := by
  constructor
  · intro h
    have hval : acute_score c = 255 - obtuse_score c := by
      simp [acute_score, h, MAX_SCORE]
    refine ⟨hval, ?_⟩
    intro h1 h2
    have hle := obtuse_score_le_255 c h1 h2
    omega
  · intro h
    constructor
    · simp [acute_score, h, MAX_SCORE]
    · simp [obtuse_score, h, MAX_SCORE]

/-- C5 witness: the amended theorem applied to a concrete non-degenerate
compatible pair with direction vectors (1,0) and (-1,0), and to a concrete
degenerate pair. -/
theorem C5_acute_score_amended_witness :
    acute_score (cand_dx10, cand_backneg) + obtuse_score (cand_dx10, cand_backneg) = 255 ∧
    acute_score (cand_deg, cand_back10) = 255 := by
  have h1 := C5_acute_score_amended cand_dx10 cand_backneg (cand_dx10, cand_backneg)
    (by decide)
  have h2 := C5_acute_score_amended cand_deg cand_back10 (cand_deg, cand_back10)
    (by decide)
  refine ⟨(h1.1 (by norm_num [cand_dx10, cand_backneg])).2
      (by norm_num [dot_product, cand_dx10, cand_backneg])
      (by norm_num [dot_product, cand_dx10, cand_backneg]), ?_⟩
  exact (h2.2 (by norm_num [cand_deg])).1

/-- The two projections of `with_indices` recover the pairs. -/
theorem with_indices_map_pair (ps : List (ℕ × MVal)) (n : ℕ) :
    (with_indices ps n).map (fun e => (e.polygon, e.value)) = ps := by
  induction ps generalizing n with
  | nil => rfl
  | cons p rest ih => simp [with_indices, ih]

/-- The indices of `with_indices` are consecutive from the start value. -/
theorem with_indices_map_index (ps : List (ℕ × MVal)) (n : ℕ) :
    (with_indices ps n).map (fun e => e.index) = List.range' n ps.length := by
  induction ps generalizing n with
  | nil => rfl
  | cons p rest ih => simp [with_indices, ih, List.range']

/-- `with_indices` distributes over append, shifting the start index. -/
theorem with_indices_append (l1 l2 : List (ℕ × MVal)) (n : ℕ) :
    with_indices (l1 ++ l2) n = with_indices l1 n ++ with_indices l2 (n + l1.length) := by
  induction l1 generalizing n with
  | nil => simp [with_indices]
  | cons p rest ih =>
    have harith : n + 1 + rest.length = n + (rest.length + 1) := by omega
    simp [with_indices, ih, harith]

/-- `make_entries` inner loop: one feature appends its polygon entries, all
carrying the feature's param value, indexed consecutively from the incoming
counter, which advances by their number. -/
theorem make_entries_feature_spec (f : src_feature) (es : List full_entry) (n : ℕ) :
    make_entries_feature f (es, n) =
      (es ++ with_indices ((f.geoms.filter (fun g => g.gtype == geom_type.Polygon)).map
        (fun g => (g.shape, f.param))) n,
       n + ((f.geoms.filter (fun g => g.gtype == geom_type.Polygon)).map
        (fun g => (g.shape, f.param))).length) := by
  unfold make_entries_feature
  have h : ∀ (gs : List src_geometry) (es : List full_entry) (n : ℕ),
      gs.foldl
        (fun (acc2 : List full_entry × ℕ) g =>
          if g.gtype = geom_type.Polygon then
            (acc2.1 ++ [⟨g.shape, f.param, acc2.2⟩], acc2.2 + 1)
          else acc2)
        (es, n) =
      (es ++ with_indices ((gs.filter (fun g => g.gtype == geom_type.Polygon)).map
        (fun g => (g.shape, f.param))) n,
       n + ((gs.filter (fun g => g.gtype == geom_type.Polygon)).map
        (fun g => (g.shape, f.param))).length) := by
    intro gs
    induction gs with
    | nil =>
      intro es n
      simp [with_indices]
    | cons g rest ih =>
      intro es n
      by_cases hg : g.gtype = geom_type.Polygon
      · have hgb : (g.gtype == geom_type.Polygon) = true := by simp [hg]
        simp only [List.foldl_cons, if_pos hg, List.filter_cons, hgb, if_pos,
          List.map_cons, with_indices, List.length_cons]
        rw [ih]
        rw [Prod.mk.injEq]
        refine ⟨?_, by omega⟩
        simp
      · have hgb : (g.gtype == geom_type.Polygon) = false := by simp [hg]
        simp only [List.foldl_cons, if_neg hg, List.filter_cons, hgb]
        exact ih es n
  exact h f.geoms es n

/-- `make_entries` outer fold: entries accumulate across features in
iteration order with a single running index. -/
theorem make_entries_fold_spec (fs : List src_feature) :
    ∀ (es : List full_entry) (n : ℕ),
    fs.foldl (fun acc f => make_entries_feature f acc) (es, n) =
      (es ++ with_indices (polygon_params fs) n, n + (polygon_params fs).length) := by
  induction fs with
  | nil =>
    intro es n
    simp [polygon_params, with_indices]
  | cons f rest ih =>
    intro es n
    simp only [List.foldl_cons]
    rw [make_entries_feature_spec f es n, ih]
    have hpp : polygon_params (f :: rest) =
        ((f.geoms.filter (fun g => g.gtype == geom_type.Polygon)).map
          (fun g => (g.shape, f.param))) ++ polygon_params rest := by
      simp [polygon_params]
    rw [hpp, with_indices_append, List.append_assoc]
    rw [Prod.mk.injEq]
    refine ⟨rfl, ?_⟩
    simp only [List.length_append]
    omega

/-- C6: every entry built by `make_entries` carries the param value of its
source feature; entry indices start at 0 and increment by one per polygon
entry; non-polygon geometries produce no entry. The entry list projects onto
the polygon/param pairs of the features, and its indices are exactly
0, 1, 2, ... . -/
theorem C6_entries_indexed_with_param (fs : List src_feature) :
    (make_entries fs).map (fun e => (e.polygon, e.value)) = polygon_params fs ∧
    (make_entries fs).map (fun e => e.index) = List.range (polygon_params fs).length := by
  unfold make_entries
  rw [make_entries_fold_spec fs [] 0]
  simp only [List.nil_append]
  refine ⟨with_indices_map_pair _ 0, ?_⟩
  rw [with_indices_map_index, List.range_eq_range']

/-- C7: an unrecognized heuristic string, an unrecognized strategy string, a
sample ratio outside (0, 1/2], or a missing param_name each make construction
fail with an error, and no processor value is produced. -/
theorem C7_construction_rejects_bad_config :
    (∀ (cfg : unionizer_config) (s : String), cfg.union_heuristic = some s →
      s ≠ "greedy" → s ≠ "obtuse" → s ≠ "acute" →
      is_ok (create_unionizer cfg) = false) ∧
    (∀ (cfg : unionizer_config) (s : String), cfg.tag_strategy = some s →
      s ≠ "intersect" → s ≠ "accumulate" →
      is_ok (create_unionizer cfg) = false) ∧
    (∀ (cfg : unionizer_config) (r : ℚ), cfg.angle_union_sample_ratio = some r →
      (r ≤ 0 ∨ 1 / 2 < r) → is_ok (create_unionizer cfg) = false) ∧
    (∀ (acfg : adminizer_config), acfg.param_name = none →
      is_ok (create_adminizer acfg) = false) := by
  refine ⟨?_, ?_, ?_, ?_⟩
  · intro cfg s hs h1 h2 h3
    have hh : string_to_heuristic s = none := by
      simp [string_to_heuristic, h1, h2, h3]
    simp [create_unionizer, hs, hh, is_ok]
  · intro cfg s hs h1 h2
    have hst : string_to_strategy s = none := by
      simp [string_to_strategy, h1, h2]
    cases hh : string_to_heuristic (cfg.union_heuristic.getD "greedy") with
    | none => simp [create_unionizer, hh, is_ok]
    | some h => simp [create_unionizer, hh, hs, hst, is_ok]
  · intro cfg r hr hbad
    cases hh : string_to_heuristic (cfg.union_heuristic.getD "greedy") with
    | none => simp [create_unionizer, hh, is_ok]
    | some h =>
      cases hst : string_to_strategy (cfg.tag_strategy.getD "intersect") with
      | none => simp [create_unionizer, hh, hst, is_ok]
      | some st =>
        simp only [create_unionizer, hh, hst, hr, Option.getD_some]
        rw [if_pos hbad]
        rfl
  · intro acfg h
    simp [create_adminizer, h, is_ok]

/-- C7 witness: concrete rejected configurations for each of the four error
conditions. -/
theorem C7_construction_rejects_bad_config_witness :
    is_ok (create_unionizer ⟨some "foo", none, none, none, none, none, none⟩) = false ∧
    is_ok (create_unionizer ⟨none, some "bar", none, none, none, none, none⟩) = false ∧
    is_ok (create_unionizer ⟨none, none, none, none, none, none, some 1⟩) = false ∧
    is_ok (create_adminizer ⟨none, []⟩) = false := by
  refine ⟨?_, ?_, ?_, ?_⟩
  · exact C7_construction_rejects_bad_config.1 _ "foo" rfl
      (by decide) (by decide) (by decide)
  · exact C7_construction_rejects_bad_config.2.1 _ "bar" rfl (by decide) (by decide)
  · exact C7_construction_rejects_bad_config.2.2.1 _ 1 rfl (Or.inr (by norm_num))
  · exact C7_construction_rejects_bad_config.2.2.2 _ rfl

/-- The inserted id is in the set after `set_insert`. -/
theorem mem_set_insert_self (s : List Int) (x : Int) : x ∈ set_insert s x := by
  by_cases h : x ∈ s <;> simp [set_insert, h]

/-- `set_insert` keeps every id already in the set. -/
theorem mem_set_insert_of_mem (s : List Int) (x y : Int) (h : y ∈ s) :
    y ∈ set_insert s x := by
  by_cases hx : x ∈ s <;> simp [set_insert, hx, h]

/-- Invariant of the `union_candidates` fold: every performed couple's parent
ids are in the touched set, and performed couples touch pairwise disjoint
feature ids. -/
theorem union_candidates_fold_invariant (scored : List (ℕ × (candidate × candidate))) :
    ∀ (st : List (candidate × candidate) × List Int),
    (∀ c ∈ st.1, c.1.m_parent.fid ∈ st.2 ∧ c.2.m_parent.fid ∈ st.2) →
    List.Pairwise couple_disjoint st.1 →
    (∀ c ∈ (scored.foldl union_step st).1,
        c.1.m_parent.fid ∈ (scored.foldl union_step st).2 ∧
        c.2.m_parent.fid ∈ (scored.foldl union_step st).2) ∧
    List.Pairwise couple_disjoint (scored.foldl union_step st).1 := by
  induction scored with
  | nil =>
    intro st h1 h2
    exact ⟨h1, h2⟩
  | cons entry rest ih =>
    intro st h1 h2
    simp only [List.foldl_cons]
    refine ih (union_step st entry) ?_ ?_
    · unfold union_step
      by_cases hskip : entry.2.1.m_parent.fid ∈ st.2 ∨ entry.2.2.m_parent.fid ∈ st.2
      · simpa [hskip] using h1
      · simp only [if_neg hskip]
        intro c hc
        simp only [List.mem_append, List.mem_singleton] at hc
        rcases hc with hc | hc
        · have hm := h1 c hc
          exact ⟨mem_set_insert_of_mem _ _ _ (mem_set_insert_of_mem _ _ _ hm.1),
                 mem_set_insert_of_mem _ _ _ (mem_set_insert_of_mem _ _ _ hm.2)⟩
        · rw [hc]
          exact ⟨mem_set_insert_of_mem _ _ _ (mem_set_insert_self _ _),
                 mem_set_insert_self _ _⟩
    · unfold union_step
      by_cases hskip : entry.2.1.m_parent.fid ∈ st.2 ∨ entry.2.2.m_parent.fid ∈ st.2
      · simpa [hskip] using h2
      · simp only [if_neg hskip]
        rw [List.pairwise_append]
        refine ⟨h2, List.pairwise_singleton _ _, ?_⟩
        intro c hc c' hc'
        simp only [List.mem_singleton] at hc'
        rw [hc']
        have hm := h1 c hc
        push_neg at hskip
        exact ⟨fun heq => hskip.1 (heq ▸ hm.1), fun heq => hskip.2 (heq ▸ hm.1),
               fun heq => hskip.1 (heq ▸ hm.2), fun heq => hskip.2 (heq ▸ hm.2)⟩

/-- C8: walking the score-ordered pairs, a pair of which either feature id
was already touched this iteration is skipped, so the performed unions touch
pairwise disjoint feature ids — every feature participates in at most one
merge per iteration — and every performed couple's ids are in the touched
set. -/
theorem C8_feature_in_at_most_one_union (scored : List (ℕ × (candidate × candidate))) :
    List.Pairwise couple_disjoint (union_candidates scored).1 ∧
    (∀ c ∈ (union_candidates scored).1,
      c.1.m_parent.fid ∈ (union_candidates scored).2 ∧
      c.2.m_parent.fid ∈ (union_candidates scored).2) := by
  have h := union_candidates_fold_invariant scored ([], [])
    (by intro c hc; simp at hc) (List.Pairwise.nil)
  exact ⟨h.2, h.1⟩

/-- C8 witness: on a one-entry score map the single union is performed and
both its parent ids are touched. -/
theorem C8_feature_in_at_most_one_union_witness :
    (cand_dx10, cand_dy01).1.m_parent.fid ∈
      (union_candidates [(0, (cand_dx10, cand_dy01))]).2 ∧
    (cand_dx10, cand_dy01).2.m_parent.fid ∈
      (union_candidates [(0, (cand_dx10, cand_dy01))]).2 :=
  (C8_feature_in_at_most_one_union [(0, (cand_dx10, cand_dy01))]).2
    (cand_dx10, cand_dy01) (by decide)

/-- A single updater invocation never increases the best index. -/
theorem param_updater_call_index_le (pn : String) (s : updater_state) (e : adm_entry) :
    (param_updater_call pn s e).m_index ≤ s.m_index := by
  unfold param_updater_call
  by_cases h : e.index < s.m_index
  · simp only [if_pos h]
    omega
  · simp [h]

/-- A whole geometry's hit list never increases the best index. -/
theorem try_update_index_le (pn : String) (hits : List adm_entry) :
    ∀ (s : updater_state), (try_update pn s hits).m_index ≤ s.m_index := by
  induction hits with
  | nil =>
    intro s
    exact le_refl _
  | cons e es ih =>
    intro s
    unfold try_update at ih ⊢
    simp only [List.foldl_cons]
    exact le_trans (ih (param_updater_call pn s e)) (param_updater_call_index_le pn s e)

/-- C9: the updater starts at the maximum representable index and unfinished;
an entry with index not strictly below the best is a no-op; an entry with a
strictly smaller index writes the attribute and lowers the best index; the
finished flag is set exactly by writing index 0; the best index never
increases across a geometry's hits; and once a geometry leaves the updater
finished, the remaining geometries are not processed. -/
theorem C9_updater_monotone_lowest_wins :
    (∀ (attrs : Attrs), (param_updater_init attrs).m_index = UINT_MAX ∧
      (param_updater_init attrs).m_finished = false) ∧
    (∀ (pn : String) (s : updater_state) (e : adm_entry),
      s.m_index ≤ e.index → param_updater_call pn s e = s) ∧
    (∀ (pn : String) (s : updater_state) (e : adm_entry), e.index < s.m_index →
      (param_updater_call pn s e).m_attrs = put_new s.m_attrs pn e.value ∧
      (param_updater_call pn s e).m_index = e.index) ∧
    (∀ (pn : String) (s : updater_state) (e : adm_entry), s.m_finished = false →
      ((param_updater_call pn s e).m_finished = true ↔
        e.index < s.m_index ∧ e.index = 0)) ∧
    (∀ (pn : String) (hits : List adm_entry) (s : updater_state),
      (try_update pn s hits).m_index ≤ s.m_index) ∧
    (∀ (pn : String) (g : List adm_entry) (rest : List (List adm_entry))
      (s : updater_state), (try_update pn s g).m_finished = true →
      adminize_feature pn (g :: rest) s = try_update pn s g) := by
  refine ⟨?_, ?_, ?_, ?_, ?_, ?_⟩
  · intro attrs
    exact ⟨rfl, rfl⟩
  · intro pn s e h
    unfold param_updater_call
    rw [if_neg (by omega)]
  · intro pn s e h
    simp [param_updater_call, h]
  · intro pn s e hf
    unfold param_updater_call
    by_cases h : e.index < s.m_index
    · simp [h]
    · simp [h, hf]
  · exact fun pn hits s => try_update_index_le pn hits s
  · intro pn g rest s h
    simp [adminize_feature, h]

/-- C9 witness: the theorem applied to concrete states and entries. -/
theorem C9_updater_monotone_lowest_wins_witness :
    (param_updater_init []).m_index = UINT_MAX ∧
    param_updater_call "iso" ⟨[], 0, true⟩ ⟨MVal.vint 7, 5⟩ = ⟨[], 0, true⟩ ∧
    (param_updater_call "iso" (param_updater_init []) ⟨MVal.vint 7, 0⟩).m_attrs =
      put_new [] "iso" (MVal.vint 7) ∧
    ((param_updater_call "iso" (param_updater_init []) ⟨MVal.vint 7, 0⟩).m_finished = true ↔
      ((⟨MVal.vint 7, 0⟩ : adm_entry).index < (param_updater_init []).m_index ∧
        (⟨MVal.vint 7, 0⟩ : adm_entry).index = 0)) ∧
    (try_update "iso" (param_updater_init []) [⟨MVal.vint 7, 0⟩]).m_index ≤
      (param_updater_init ([] : Attrs)).m_index ∧
    adminize_feature "iso" [[⟨MVal.vint 7, 0⟩], [⟨MVal.vint 8, 1⟩]] (param_updater_init []) =
      try_update "iso" (param_updater_init []) [⟨MVal.vint 7, 0⟩] := by
  have h := C9_updater_monotone_lowest_wins
  exact ⟨(h.1 []).1,
         h.2.1 "iso" ⟨[], 0, true⟩ ⟨MVal.vint 7, 5⟩ (by decide),
         (h.2.2.1 "iso" (param_updater_init []) ⟨MVal.vint 7, 0⟩ (by decide)).1,
         h.2.2.2.1 "iso" (param_updater_init []) ⟨MVal.vint 7, 0⟩ rfl,
         h.2.2.2.2.1 "iso" [⟨MVal.vint 7, 0⟩] (param_updater_init []),
         h.2.2.2.2.2 "iso" [⟨MVal.vint 7, 0⟩] [[⟨MVal.vint 8, 1⟩]] (param_updater_init [])
           (by decide)⟩

/-- C10 counterexample to the claim's parenthetical: a front-front couple of
the same feature with differing geometry indices is refused by the
compatibility filter when the candidates are directional. -/
theorem C10_directional_front_front_refused :
    cdir_f0.m_index ≠ cdir_f1.m_index ∧ cdir_f0.m_parent = cdir_f1.m_parent ∧
    cdir_f0.m_position = cposition.FRONT ∧ cdir_f1.m_position = cposition.FRONT ∧
    make_couple cdir_f0 cdir_f1 = none := by
  decide

/-- C10 (amended): a front-front couple of one feature with differing indices
is allowed by the filter when the candidates are not directional; the splice
then erases at the first index and at the second, stored, index of the
now-shifted container. When the first index is smaller: if the second index
was not the last position, the element found at the second index is the one
originally following the consumed source geometry, which itself survives at
the preceding position; if the second index was the last position, the second
erase is past the end of the shifted container (undefined in C++, a no-op in
this model). -/
theorem C10_front_front_double_erase :
    (∀ a b : candidate, a.m_parent = b.m_parent → a.m_index ≠ b.m_index →
      a.m_directional = false → b.m_directional = false →
      make_couple a b = some (a, b)) ∧
    (∀ (paths : List (List (ℚ × ℚ))) (i1 i2 : ℕ), i1 < i2 → i2 + 1 < paths.length →
      (do_union_front_front paths i1 i2)[i2 - 1]? = paths[i2]? ∧
      ((paths.eraseIdx i1).eraseIdx i2)[i2 - 1]? = paths[i2]? ∧
      (paths.eraseIdx i1)[i2]? = paths[i2 + 1]?) ∧
    (∀ (paths : List (List (ℚ × ℚ))) (i1 i2 : ℕ), i1 < i2 → i2 = paths.length - 1 →
      (paths.eraseIdx i1).length ≤ i2 ∧
      (paths.eraseIdx i1).eraseIdx i2 = paths.eraseIdx i1) := by
  refine ⟨?_, ?_, ?_⟩
  · intro a b hp hi hda hdb
    simp [make_couple, hi, hda, hdb]
  · intro paths i1 i2 h12 hlen
    have h1l : i1 < paths.length := by omega
    have he1 : (paths.eraseIdx i1).length = paths.length - 1 :=
      List.length_eraseIdx_of_lt h1l
    have h2l : i2 < (paths.eraseIdx i1).length := by omega
    have he2 : ((paths.eraseIdx i1).eraseIdx i2).length = paths.length - 2 := by
      rw [List.length_eraseIdx_of_lt h2l, he1]
      omega
    have hmid : ((paths.eraseIdx i1).eraseIdx i2)[i2 - 1]? = paths[i2]? := by
      rw [List.getElem?_eraseIdx_of_lt _ i2 (i2 - 1) (by omega)]
      rw [List.getElem?_eraseIdx_of_ge _ i1 (i2 - 1) (by omega)]
      have : i2 - 1 + 1 = i2 := by omega
      rw [this]
    refine ⟨?_, hmid, ?_⟩
    · unfold do_union_front_front
      rw [List.getElem?_append_left (by omega)]
      exact hmid
    · exact List.getElem?_eraseIdx_of_ge _ i1 i2 (by omega)
  · intro paths i1 i2 h12 hi2
    have h1l : i1 < paths.length := by omega
    have he1 : (paths.eraseIdx i1).length = paths.length - 1 :=
      List.length_eraseIdx_of_lt h1l
    refine ⟨by omega, List.eraseIdx_of_length_le (by omega)⟩

/-- C10 witness: the filter accepts a concrete non-directional same-feature
front-front couple; on a four-geometry container with indices 0 and 1 the
source of index 1 survives at position 0; on a three-geometry container with
indices 0 and 2 the second erase is past the end. -/
theorem C10_front_front_double_erase_witness :
    make_couple cnod_f0 cnod_f1 = some (cnod_f0, cnod_f1) ∧
    (do_union_front_front
        ([[(0, 0)], [(1, 1)], [(2, 2)], [(3, 3)]] : List (List (ℚ × ℚ))) 0 1)[0]? =
      ([[(0, 0)], [(1, 1)], [(2, 2)], [(3, 3)]] : List (List (ℚ × ℚ)))[1]? ∧
    (([[(0, 0)], [(1, 1)], [(2, 2)]] : List (List (ℚ × ℚ))).eraseIdx 0).eraseIdx 2 =
      ([[(0, 0)], [(1, 1)], [(2, 2)]] : List (List (ℚ × ℚ))).eraseIdx 0 := by
  have h := C10_front_front_double_erase
  refine ⟨h.1 cnod_f0 cnod_f1 rfl (by decide) rfl rfl, ?_, ?_⟩
  · exact (h.2.1 ([[(0, 0)], [(1, 1)], [(2, 2)], [(3, 3)]] : List (List (ℚ × ℚ))) 0 1
      (by decide) (by decide)).1
  · exact (h.2.2 ([[(0, 0)], [(1, 1)], [(2, 2)]] : List (List (ℚ × ℚ))) 0 2
      (by decide) (by decide)).2

end Avecado
